import Mathlib

/-!
# Verification of the muacrypt Autocrypt core

Shallow embedding of the Autocrypt header codec (`src/muacrypt/mime.py`),
the peer-state reconciliation of the historical account module
(`src/core/autocrypt/account.py`), and the persistent-config commit/rollback
logic (`PersistentAttrMixin`).  Strings are modelled as `List Char`, byte
strings as `List Nat` (each element below 256), a raised Python exception as
the `exn` constructor of `PyRes`.
-/

set_option maxHeartbeats 1000000

/-- Outcome of running a piece of Python code: either a returned value, or a
raised exception (the code under study never inspects the exception payload,
so the exception case carries no data). -/
inductive PyRes (α : Type) where
  | ok (a : α)
  | exn
deriving DecidableEq

/-- The six ASCII whitespace characters stripped by the Python `str.strip` and
`str.split` methods (the inputs modelled here are ASCII header values, so the
further Unicode whitespace code points never occur). -/
def isSpaceB (c : Char) : Bool :=
  c = ' ' || c = '\t' || c = '\n' || c = '\r' || c = '\x0b' || c = '\x0c'

/-- Python `s.lstrip()`. -/
def lstripWS (l : List Char) : List Char := l.dropWhile isSpaceB

/-- Python `s.rstrip()`. -/
def rstripWS (l : List Char) : List Char := (l.reverse.dropWhile isSpaceB).reverse

/-- Python `s.strip()`. -/
def stripWS (l : List Char) : List Char := rstripWS (lstripWS l)

/-- Python `"".join(s.split())`: removing every whitespace character. -/
def removeWS (l : List Char) : List Char := l.filter (fun c => !isSpaceB c)

/-- Python `s.split(sep)` for a one-character separator: always returns at
least one piece, empty pieces included. -/
def splitChar (sep : Char) : List Char → List (List Char)
  | [] => [[]]
  | c :: rest =>
    match splitChar sep rest with
    | [] => [[c]]
    | p :: ps => if c = sep then [] :: p :: ps else (c :: p) :: ps

/-- Python `s.split(sep, 1)`: the part before the first separator, and
(when a separator occurs) the part after it. -/
def splitOnce (sep : Char) : List Char → List Char × Option (List Char)
  | [] => ([], none)
  | c :: rest =>
    if c = sep then ([], some rest)
    else
      let r := splitOnce sep rest
      (c :: r.1, r.2)

/-- Python `"; ".join(l)`. -/
def joinSemiSp : List (List Char) → List Char
  | [] => []
  | [x] => x
  | x :: y :: t => x ++ ';' :: ' ' :: joinSemiSp (y :: t)

/-- Association-list update with Python-dict semantics: replace the value of
an existing key in place, otherwise append the new binding. -/
def alSet {α : Type} : List (List Char × α) → List Char → α → List (List Char × α)
  | [], k, v => [(k, v)]
  | (k₀, v₀) :: t, k, v => if k₀ = k then (k, v) :: t else (k₀, v₀) :: alSet t k v

/-- Association-list lookup. -/
def alGet {α : Type} : List (List Char × α) → List Char → Option α
  | [], _ => none
  | (k₀, v₀) :: t, k => if k₀ = k then some v₀ else alGet t k

/-! ## Base64 (model of `base64.b64encode` / `base64.b64decode`) -/

/-- The standard base64 alphabet. -/
def b64chars : List Char :=
  "ABCDEFGHIJKLMNOPQRSTUVWXYZabcdefghijklmnopqrstuvwxyz0123456789+/".toList

/-- Index-to-character table lookup. -/
def toB64 (n : Nat) : Char := b64chars.getD n '?'

/-- First index of a character in a list. -/
def idxIn : List Char → Char → Option Nat
  | [], _ => none
  | x :: xs, c => if x = c then some 0 else (idxIn xs c).map (· + 1)

/-- Character-to-index lookup in the base64 alphabet. -/
def fromB64 (c : Char) : Option Nat := idxIn b64chars c

/-- Whether a character belongs to the base64 alphabet. -/
def isB64 (c : Char) : Bool := (fromB64 c).isSome

/-- `base64.b64encode`: three bytes to four characters, with `=` padding. -/
def b64encode : List Nat → List Char
  | [] => []
  | [b1] => [toB64 (b1 / 4), toB64 (b1 % 4 * 16), '=', '=']
  | [b1, b2] => [toB64 (b1 / 4), toB64 (b1 % 4 * 16 + b2 / 16), toB64 (b2 % 16 * 4), '=']
  | b1 :: b2 :: b3 :: rest =>
      toB64 (b1 / 4) :: toB64 (b1 % 4 * 16 + b2 / 16) ::
      toB64 (b2 % 16 * 4 + b3 / 64) :: toB64 (b3 % 64) :: b64encode rest

/-- Four-character-block decoding; `none` models `binascii.Error`.  Mirrors
CPython on every input produced by `b64encode` (alphabet characters in groups
of four with final `=` padding); on inputs with interior padding it is
slightly stricter than the non-strict CPython mode, a corner no theorem below
touches. -/
def b64decodeBlocks : List Char → Option (List Nat)
  | [] => some []
  | c1 :: c2 :: c3 :: c4 :: rest =>
    match fromB64 c1, fromB64 c2 with
    | some n1, some n2 =>
      if c3 = '=' then
        if c4 = '=' ∧ rest = [] then some [n1 * 4 + n2 / 16] else none
      else
        match fromB64 c3 with
        | some n3 =>
          if c4 = '=' then
            if rest = [] then some [n1 * 4 + n2 / 16, n2 % 16 * 16 + n3 / 4] else none
          else
            match fromB64 c4 with
            | some n4 =>
              match b64decodeBlocks rest with
              | some bs =>
                  some ((n1 * 4 + n2 / 16) :: (n2 % 16 * 16 + n3 / 4) :: (n3 % 4 * 64 + n4) :: bs)
              | none => none
            | none => none
        | none => none
    | _, _ => none
  | _ => none

/-- `base64.b64decode` in its default non-strict mode: characters outside the
alphabet (and not `=`) are discarded before block decoding. -/
def b64decode (s : List Char) : Option (List Nat) :=
  b64decodeBlocks (s.filter (fun c => isB64 c || c = '='))

/-! ## Header codec (`src/muacrypt/mime.py`) -/

/-- `indented_split`, chunking step with an explicit fuel so that the
definition computes by kernel reduction; `joinChunks` below supplies a
sufficient fuel.  Mirrors the loop
`for i in range(0, len(value), maxlen): l.append(indent + value[i:i+maxlen] + newline)`
with `maxlen = 78` and `indent = two spaces`. -/
def joinChunksF : Nat → List Char → List Char
  | _, [] => []
  | 0, _ :: _ => []
  | fuel + 1, c :: t =>
      "  ".toList ++ (c :: t).take 78 ++ ['\n'] ++ joinChunksF fuel ((c :: t).drop 78)

/-- The chunk loop of `indented_split` at its natural fuel. -/
def joinChunks (v : List Char) : List Char := joinChunksF v.length v

/-- `mime.indented_split(value)`: 78-character chunks, each indented by two
spaces and newline-terminated, with the trailing whitespace stripped. -/
def indented_split (v : List Char) : List Char := rstripWS (joinChunks v)

/-- `mime.make_ac_header_value(addr, keydata, prefer_encrypt)`.  The Python
function asserts that `keydata` is non-empty; behaviour is only claimed for
non-empty key material. -/
def make_ac_header_value (addr : List Char) (keydata : List Nat) (prefer_encrypt : List Char) :
    List Char :=
  let key := b64encode keydata
  let l₁ := ["addr=".toList ++ addr]
  let l₂ := if prefer_encrypt = "nopreference".toList then l₁
            else l₁ ++ ["prefer-encrypt=".toList ++ prefer_encrypt]
  joinSemiSp (l₂ ++ ["keydata=\n".toList ++ indented_split key])

/-- `mime.ACParseResult`: on success `keydata`, `addr`, `prefer_encrypt` and
`extra_attr` are populated and `error` is `none`; an error result carries only
`error` (the attrs-class defaults leave every other field `None`). -/
structure ACParseResult where
  keydata : Option (List Nat)
  addr : Option (List Char)
  prefer_encrypt : Option (List Char)
  extra_attr : Option (List (List Char × List Char))
  error : Option (List Char)
deriving DecidableEq

/-- An error result: only `error` is set. -/
def errResult (msg : List Char) : ACParseResult :=
  { keydata := none, addr := none, prefer_encrypt := none, extra_attr := none, error := some msg }

def malformedMsg : List Char := "malformed setting".toList

def decodeFailMsg : List Char := "failed to decode keydata".toList

def unknownPreferMsg (v : List Char) : List Char :=
  "unknown prefer-encryp setting \x27".toList ++ v ++ "\x27".toList

def unknownCriticalMsg (n : List Char) : List Char :=
  "unknown critical attr \x27".toList ++ n ++ "\x27".toList

def criticalMissingKeydata : List Char := "critical attr \x27keydata\x27 missing".toList

def criticalMissingAddr : List Char := "critical attr \x27addr\x27 missing".toList

def emptyHeaderMsg : List Char := "empty header".toList

/-- The `result_dict` of `parse_ac_headervalue`: its keys can only ever be
`addr`, `keydata` and `prefer_encrypt` (every other attribute name either
aborts parsing or goes to `extra_attr`), so it is modelled as a record;
`prefer_encrypt` starts at its default `nopreference`. -/
structure RDict where
  keydata : Option (List Nat)
  addr : Option (List Char)
  prefer_encrypt : List Char
deriving DecidableEq

/-- The segment loop of `parse_ac_headervalue` followed by the final
critical-attribute check.  The `name = []` case models the Python expression
`name[0]`, which raises `IndexError` on an empty attribute name. -/
def parseLoop : List (List Char) → RDict → List (List Char × List Char) → PyRes ACParseResult
  | [], rd, extra =>
    match rd.keydata with
    | none => .ok (errResult criticalMissingKeydata)
    | some k =>
      match rd.addr with
      | none => .ok (errResult criticalMissingAddr)
      | some a =>
        .ok { keydata := some k, addr := some a, prefer_encrypt := some rd.prefer_encrypt,
              extra_attr := some extra, error := none }
  | x :: rest, rd, extra =>
    match splitOnce '=' x with
    | (_, none) => .ok (errResult malformedMsg)
    | (n, some v) =>
      let name := stripWS n
      let val := stripWS v
      if name = "keydata".toList then
        match b64decode (removeWS val) with
        | none => .ok (errResult decodeFailMsg)
        | some bs => parseLoop rest { rd with keydata := some bs } extra
      else if name = "prefer-encrypt".toList then
        if val = "nopreference".toList ∨ val = "mutual".toList then
          parseLoop rest { rd with prefer_encrypt := val } extra
        else .ok (errResult (unknownPreferMsg val))
      else if name = "addr".toList then
        parseLoop rest { rd with addr := some val } extra
      else
        match name with
        | [] => .exn
        | c :: _ =>
          if c = '_' then parseLoop rest rd (alSet extra name val)
          else .ok (errResult (unknownCriticalMsg name))

/-- `filter(None, [x.strip() for x in value.split(";")])`: split on `;`,
strip, drop empty segments. -/
def acParts (value : List Char) : List (List Char) :=
  ((splitChar ';' value).map stripWS).filter (fun p => !p.isEmpty)

/-- `mime.parse_ac_headervalue(value)` as it executes under Python 3: there
`filter(...)` returns an iterator object, which is always truthy, so the
`if not parts: return ACParseResult(error="empty header")` guard never fires
and an input with zero segments falls through to the missing-critical-attr
check. -/
def parse_ac_headervalue (value : List Char) : PyRes ACParseResult :=
  parseLoop (acParts value)
    { keydata := none, addr := none, prefer_encrypt := "nopreference".toList } []

/-- `mime.parse_ac_headervalue(value)` as it executes under Python 2, where
`filter` returns a list and the empty-header guard works as written. -/
def parse_ac_headervalue_py2 (value : List Char) : PyRes ACParseResult :=
  let parts := acParts value
  if parts.isEmpty then .ok (errResult emptyHeaderMsg)
  else parseLoop parts
    { keydata := none, addr := none, prefer_encrypt := "nopreference".toList } []

/-! ## Header selection from a message (`mime.parse_one_ac_header_from_msg`) -/

/-- The slice of an email message that header selection consumes: its declared
content type and the list of `Autocrypt:` header values (extraction of both
from raw mail bytes is delegated to the external mail parser). -/
structure MimeMsg where
  contentType : List Char
  acHeaders : List (List Char)
deriving DecidableEq

def reportCT : List Char := "multipart/report".toList

def reportMsg : List Char := "Ignoring \x27multipart/report\x27 message.".toList

def ambiguousMsg : List Char := "more than one valid Autocrypt header found".toList

def noValidMsg : List Char := "no valid Autocrypt header found".toList

/-- The condition `not FromList or r.addr in FromList`: a `None` allow-list,
and likewise an empty one (both falsy in Python), disable filtering. -/
def fromListPass (fl : Option (List (List Char))) (r : ACParseResult) : Bool :=
  match fl with
  | none => true
  | some [] => true
  | some l =>
    match r.addr with
    | some a => decide (a ∈ l)
    | none => false

/-- The collection loop of `parse_one_ac_header_from_msg`: parse each header
value, sort it into the surviving (`results`) or non-surviving
(`err_results`) list; a raised parse exception propagates. -/
def acSelect (fl : Option (List (List Char))) : List (List Char) →
    PyRes (List ACParseResult × List ACParseResult)
  | [] => .ok ([], [])
  | h :: t =>
    match parse_ac_headervalue h with
    | .exn => .exn
    | .ok r =>
      match acSelect fl t with
      | .exn => .exn
      | .ok (res, errs) =>
        if r.error = none ∧ fromListPass fl r then .ok (r :: res, errs)
        else .ok (res, r :: errs)

/-- `mime.parse_one_ac_header_from_msg(msg, FromList)`. -/
def parse_one_ac_header_from_msg (msg : MimeMsg) (fl : Option (List (List Char))) :
    PyRes ACParseResult :=
  if msg.contentType = reportCT then .ok (errResult reportMsg)
  else
    match acSelect fl msg.acHeaders with
    | .exn => .exn
    | .ok (results, errs) =>
      match results with
      | [r] => .ok r
      | [] =>
        match errs with
        | e :: _ => .ok e
        | [] => .ok (errResult noValidMsg)
      | _ => .ok (errResult ambiguousMsg)

/-! ## Peer-state reconciliation (`src/core/autocrypt/account.py`)

The account module under `src/core/autocrypt/` imports its own sibling
`mime` module, which is not part of the sources; only its caller
`Account.process_incoming` is.  The selection step is therefore modelled from
the specification (4.1 and 4.2) and the date-guard / update / clear logic is
embedded from `account.py` itself.  Message dates are modelled by their image
under `email.utils.parsedate` (an external mail-parser concern): `some n` for
a parseable date, `none` for a missing or unparseable one; the order on `Nat`
stands for the lexicographic order on parsed time tuples. -/

/-- The slice of an inbound message that `Account.process_incoming` consumes:
the From address, the parsed Date header, the content type and the
`Autocrypt:` header values. -/
structure InMsg where
  fromAddr : List Char
  date : Option Nat
  contentType : List Char
  acHeaders : List (List Char)

/-- Outcome of header selection as `process_incoming` observes it. -/
inductive SelOutcome where
  | found (h : ACParseResult)
  | badHeader
  | noneFound
deriving DecidableEq

/-- Modelled from the spec: the header selection of the missing module
`core/autocrypt/mime.py` (only its caller `account.py` is under `src/`).
Following spec 4.1: a `multipart/report` message is rejected outright; with
no `Autocrypt:` header at all the outcome is `noneFound`; with exactly one
surviving valid header that header is returned; every other case (parse
error, ambiguity) is an error outcome, which spec 4.2 steps 5-6 distinguish
from `noneFound` (errors are ignored, only a header-free mail clears state).
Individual header values are parsed with the 4.1 grammar parser, i.e. the
embedded `parse_ac_headervalue`. -/
def selectIncomingHeader (m : InMsg) : SelOutcome :=
  if m.contentType = reportCT then .badHeader
  else
    match m.acHeaders with
    | [] => .noneFound
    | hs =>
      let valids := hs.filterMap (fun h =>
        match parse_ac_headervalue h with
        | .ok r => if r.error = none then some r else none
        | .exn => none)
      match valids with
      | [r] => .found r
      | _ => .badHeader

/-- One stored peer record (a non-empty entry of `config.peers`): the parsed
header dict `d` plus the bookkeeping fields `*date` and `*keyhandle` that
`process_incoming` adds before storing. -/
structure PeerEntry where
  ac : ACParseResult
  date : Option Nat
  keyhandle : Nat
deriving DecidableEq

/-- The persisted peers mapping: address to stored record, where a `none`
value models the empty dict `{}` that a cleared peer is set to (both a
missing key and `{}` are falsy for every read in `account.py`). -/
structure AccountState where
  peers : List (List Char × Option PeerEntry)
deriving DecidableEq

/-- `self.config.peers.get(From, {})` read through its truthiness: `some`
exactly when a non-empty record is stored. -/
def getPeer (st : AccountState) (a : List Char) : Option PeerEntry :=
  match alGet st.peers a with
  | some (some e) => some e
  | _ => none

/-- `Account.get_peerinfo(emailadr)`: returns a `PeerInfo` only for a stored
non-empty record (`if state:`). -/
def get_peerinfo (st : AccountState) (a : List Char) : Option PeerEntry :=
  getPeer st a

/-- `old.get("*date", date)`: the stored date of the sender's record, or the
incoming date as default when nothing (or an empty dict) is stored. -/
def oldDateOf (st : AccountState) (m : InMsg) : Option Nat :=
  match getPeer st m.fromAddr with
  | some e => e.date
  | none => m.date

/-- `parsedate(x) >= parsedate(y)` under Python 3: comparing `None` with
anything (including `None`) raises `TypeError`. -/
def pyGE : Option Nat → Option Nat → PyRes Bool
  | some a, some b => .ok (decide (b ≤ a))
  | _, _ => .exn

/-- `Account.process_incoming(msg)`.  `importKey` stands for the external
keyring call `self.bingpg.import_keydata` (opaque here); the returned
`Option PeerEntry` is the `PeerInfo` result (`none` for the no-update paths,
which return `None` in Python).  The branch on the selection outcome follows
spec 4.2 steps 3/5/6 (see `selectIncomingHeader`); the address check, date
guard, bookkeeping fields and the clear-to-empty-dict are from `account.py`
lines 223-241, with the old wire attribute names `to`/`key` of that module
corresponding to `addr`/`keydata` of the parse result. -/
def process_incoming (importKey : List Nat → Nat) (st : AccountState) (m : InMsg) :
    PyRes (AccountState × Option PeerEntry) :=
  let From := m.fromAddr
  let old := getPeer st From
  match selectIncomingHeader m with
  | .found d =>
    if d.addr = some From then
      match pyGE m.date (oldDateOf st m) with
      | .exn => .exn
      | .ok true =>
        let e : PeerEntry :=
          { ac := d, date := m.date, keyhandle := importKey (d.keydata.getD []) }
        .ok ({ peers := alSet st.peers From (some e) }, some e)
      | .ok false => .ok (st, none)
    else .ok (st, none)
  | .badHeader => .ok (st, none)
  | .noneFound =>
    match old with
    | some _ => .ok ({ peers := alSet st.peers From none }, none)
    | none => .ok (st, none)

/-! ## Persistent config commit and rollback (`PersistentAttrMixin`) -/

/-- The persistence-relevant state of a `PersistentAttrMixin`: the live
`_dict`, the last-committed snapshot `_dict_old`, and the backing file
content (`none` when the file has never been written). -/
structure ConfigState (α : Type) where
  dict : α
  dictOld : α
  file : Option α
deriving DecidableEq

/-- `PersistentAttrMixin._commit()`: write the file and refresh the snapshot
only when the live dict differs from the snapshot; the returned flag is the
`return True` of the source (`False` standing for the implicit `None`). -/
def commitCfg {α : Type} [DecidableEq α] (st : ConfigState α) : ConfigState α × Bool :=
  if st.dict ≠ st.dictOld then
    ({ st with file := some st.dict, dictOld := st.dict }, true)
  else (st, false)

/-- `PersistentAttrMixin.atomic_change()`: run the body over the live dict;
on an exception restore the live dict from the snapshot and re-raise, on
success commit.  Returns the final state, the re-raised exception if any, and
whether the file was written. -/
def atomic_change {α ε : Type} [DecidableEq α] (st : ConfigState α) (body : α → Except ε α) :
    ConfigState α × Option ε × Bool :=
  match body st.dict with
  | .error e => ({ st with dict := st.dictOld }, some e, false)
  | .ok d =>
    let (st2, wrote) := commitCfg { st with dict := d }
    (st2, none, wrote)

/-! ## Whitespace and splitting lemmas -/

lemma removeWS_append (a b : List Char) : removeWS (a ++ b) = removeWS a ++ removeWS b :=
  List.filter_append ..

lemma removeWS_eq_self (l : List Char) (h : ∀ c ∈ l, isSpaceB c = false) : removeWS l = l := by
  apply List.filter_eq_self.mpr
  intro c hc
  simp [h c hc]

lemma removeWS_all_space (l : List Char) (h : ∀ c ∈ l, isSpaceB c = true) : removeWS l = [] := by
  apply List.filter_eq_nil_iff.mpr
  intro c hc
  simp [h c hc]

lemma removeWS_dropWhile (l : List Char) : removeWS (l.dropWhile isSpaceB) = removeWS l := by
  induction l with
  | nil => rfl
  | cons c t ih =>
    by_cases hc : isSpaceB c
    · simp [List.dropWhile_cons, hc, removeWS, ih, List.filter_cons]
      simpa [removeWS] using ih
    · simp [List.dropWhile_cons, hc]

lemma removeWS_reverse (l : List Char) : removeWS l.reverse = (removeWS l).reverse :=
  List.filter_reverse ..

lemma removeWS_lstrip (l : List Char) : removeWS (lstripWS l) = removeWS l :=
  removeWS_dropWhile l

lemma removeWS_rstrip (l : List Char) : removeWS (rstripWS l) = removeWS l := by
  have h := removeWS_dropWhile l.reverse
  have : removeWS (rstripWS l) = (removeWS (l.reverse.dropWhile isSpaceB)).reverse := by
    rw [rstripWS, removeWS_reverse]
  rw [this, h, removeWS_reverse, List.reverse_reverse]

lemma removeWS_strip (l : List Char) : removeWS (stripWS l) = removeWS l := by
  rw [stripWS, removeWS_rstrip, removeWS_lstrip]

lemma dropWhile_subset' {p : Char → Bool} {l : List Char} {c : Char}
    (h : c ∈ l.dropWhile p) : c ∈ l := by
  induction l with
  | nil => simp at h
  | cons a t ih =>
    rw [List.dropWhile_cons] at h
    by_cases ha : p a
    · simp [ha] at h
      exact List.mem_cons_of_mem _ (ih h)
    · simpa [ha] using h

lemma mem_rstrip {l : List Char} {c : Char} (h : c ∈ rstripWS l) : c ∈ l := by
  rw [rstripWS, List.mem_reverse] at h
  have := dropWhile_subset' h
  simpa using this

lemma dropWhile_dropWhile (p : Char → Bool) (l : List Char) :
    (l.dropWhile p).dropWhile p = l.dropWhile p := by
  induction l with
  | nil => rfl
  | cons a t ih =>
    rw [List.dropWhile_cons]
    by_cases ha : p a
    · simp [ha, ih]
    · simp [ha, List.dropWhile_cons]

lemma rstrip_idem (l : List Char) : rstripWS (rstripWS l) = rstripWS l := by
  rw [rstripWS, rstripWS, List.reverse_reverse, dropWhile_dropWhile]

lemma rstrip_append {x y : List Char} (hy : y ≠ []) (hys : rstripWS y = y) :
    rstripWS (x ++ y) = x ++ y := by
  have hyr : y.reverse.dropWhile isSpaceB = y.reverse := by
    have := congrArg List.reverse hys
    rwa [rstripWS, List.reverse_reverse] at this
  obtain ⟨c, t, hct⟩ : ∃ c t, y.reverse = c :: t := by
    cases hr : y.reverse with
    | nil => exact absurd (by simpa using congrArg List.reverse hr) hy
    | cons c t => exact ⟨c, t, rfl⟩
  have hc : isSpaceB c = false := by
    by_contra hcc
    have hcc' : isSpaceB c = true := by simpa using hcc
    rw [hct, List.dropWhile_cons, hcc'] at hyr
    have hlen := congrArg List.length hyr
    have := (List.dropWhile_sublist (p := isSpaceB) (l := t)).length_le
    simp at hlen
    omega
  have hy2 : y = t.reverse ++ [c] := by
    have := congrArg List.reverse hct
    simpa using this
  rw [rstripWS, List.reverse_append, hct, List.cons_append, List.dropWhile_cons, hc]
  simp [hy2]

lemma rstrip_of_all_nonspace {l : List Char} (h : ∀ c ∈ l, isSpaceB c = false) :
    rstripWS l = l := by
  cases hr : l.reverse with
  | nil =>
    have : l = [] := by simpa using congrArg List.reverse hr
    simp [this, rstripWS]
  | cons c t =>
    have hc : isSpaceB c = false := by
      apply h
      have : c ∈ l.reverse := by rw [hr]; exact List.mem_cons_self ..
      simpa using this
    rw [rstripWS, hr, List.dropWhile_cons, hc]
    simp [← hr]

lemma lstrip_of_head {c : Char} {t : List Char} (h : isSpaceB c = false) :
    lstripWS (c :: t) = c :: t := by
  rw [lstripWS, List.dropWhile_cons, h]
  simp

lemma rstrip_ne_nil {l : List Char} (h : ∃ c ∈ l, isSpaceB c = false) : rstripWS l ≠ [] := by
  intro hnil
  obtain ⟨c, hc, hcs⟩ := h
  have : l.reverse.dropWhile isSpaceB = [] := by
    have := congrArg List.reverse hnil
    rwa [rstripWS, List.reverse_reverse] at this
  have hall := List.dropWhile_eq_nil_iff.mp this
  have : isSpaceB c = true := hall c (by simpa using hc)
  rw [hcs] at this
  exact Bool.false_ne_true this

lemma stripWS_cons_space (l : List Char) : stripWS (' ' :: l) = stripWS l := by
  rw [stripWS, stripWS, lstripWS, lstripWS, List.dropWhile_cons]
  norm_num [isSpaceB]

lemma stripWS_eq_of_ends {l : List Char} (h1 : lstripWS l = l) (h2 : rstripWS l = l) :
    stripWS l = l := by
  rw [stripWS, h1, h2]

/-! splitChar lemmas -/

lemma splitChar_ne_nil (sep : Char) (l : List Char) : splitChar sep l ≠ [] := by
  induction l with
  | nil => simp [splitChar]
  | cons c t ih =>
    rw [splitChar]
    cases h : splitChar sep t with
    | nil => simp
    | cons p ps =>
      by_cases hc : c = sep <;> simp [hc]

lemma splitChar_no_sep {sep : Char} {l : List Char} (h : sep ∉ l) : splitChar sep l = [l] := by
  induction l with
  | nil => rfl
  | cons c t ih =>
    have hc : ¬ c = sep := fun hh => h (hh ▸ List.mem_cons_self ..)
    have ht : sep ∉ t := fun hh => h (List.mem_cons_of_mem _ hh)
    rw [splitChar, ih ht]
    simp [hc]

lemma splitChar_cons_sep (sep : Char) (y : List Char) :
    splitChar sep (sep :: y) = [] :: splitChar sep y := by
  rw [splitChar]
  cases h : splitChar sep y with
  | nil => exact absurd h (splitChar_ne_nil sep y)
  | cons p ps => simp

lemma splitChar_append_sep {sep : Char} {x : List Char} (y : List Char) (hx : sep ∉ x) :
    splitChar sep (x ++ sep :: y) = x :: splitChar sep y := by
  induction x with
  | nil => simpa using splitChar_cons_sep sep y
  | cons c t ih =>
    have hc : ¬ c = sep := fun hh => hx (hh ▸ List.mem_cons_self ..)
    have ht : sep ∉ t := fun hh => hx (List.mem_cons_of_mem _ hh)
    rw [List.cons_append, splitChar, ih ht]
    simp [hc]

/-! splitOnce lemmas -/

lemma splitOnce_no_sep {sep : Char} {l : List Char} (h : sep ∉ l) :
    splitOnce sep l = (l, none) := by
  induction l with
  | nil => rfl
  | cons c t ih =>
    have hc : ¬ c = sep := fun hh => h (hh ▸ List.mem_cons_self ..)
    have ht : sep ∉ t := fun hh => h (List.mem_cons_of_mem _ hh)
    rw [splitOnce, ih ht]
    simp [hc]

lemma splitOnce_append {sep : Char} {x : List Char} (y : List Char) (hx : sep ∉ x) :
    splitOnce sep (x ++ sep :: y) = (x, some y) := by
  induction x with
  | nil => simp [splitOnce]
  | cons c t ih =>
    have hc : ¬ c = sep := fun hh => hx (hh ▸ List.mem_cons_self ..)
    have ht : sep ∉ t := fun hh => hx (List.mem_cons_of_mem _ hh)
    rw [List.cons_append, splitOnce]
    simp [hc, ih ht]

/-! ## Base64 lemmas -/

lemma fromB64_toB64 : ∀ n : Nat, n < 64 → fromB64 (toB64 n) = some n := by decide

lemma toB64_ne_pad : ∀ n : Nat, n < 64 → toB64 n ≠ '=' := by decide

lemma toB64_mem : ∀ n : Nat, n < 64 → toB64 n ∈ b64chars := by decide

lemma b64chars_nonspace : ∀ c ∈ b64chars, isSpaceB c = false := by decide

lemma b64chars_ne_semi : ∀ c ∈ b64chars, c ≠ ';' := by decide

lemma b64chars_ne_eqsign : ∀ c ∈ b64chars, c ≠ '=' := by decide

lemma idxIn_isSome_of_mem {l : List Char} {c : Char} (h : c ∈ l) : (idxIn l c).isSome := by
  induction l with
  | nil => simp at h
  | cons x xs ih =>
    rw [idxIn]
    by_cases hx : x = c
    · simp [hx]
    · have : c ∈ xs := by
        rcases List.mem_cons.mp h with h1 | h1
        · exact absurd h1.symm hx
        · exact h1
      simp [hx, Option.isSome_map]
      simpa using ih this

lemma isB64_of_mem {c : Char} (h : c ∈ b64chars) : isB64 c = true := by
  rw [isB64, fromB64]
  exact idxIn_isSome_of_mem h

/-- Every character that `b64encode` emits is an alphabet character or the
padding sign, provided the input really consists of bytes. -/
lemma mem_b64encode : ∀ (fuel : Nat) (bs : List Nat), bs.length ≤ fuel →
    (∀ b ∈ bs, b < 256) → ∀ c ∈ b64encode bs, c ∈ b64chars ∨ c = '=' := by
  intro fuel
  induction fuel with
  | zero =>
    intro bs hlen _ c hc
    have : bs = [] := List.length_eq_zero.mp (Nat.le_zero.mp hlen)
    subst this
    simp [b64encode] at hc
  | succ n ih =>
    intro bs hlen hb c hc
    match bs with
    | [] => simp [b64encode] at hc
    | [b1] =>
      have h1 : b1 < 256 := hb b1 (by simp)
      rw [b64encode] at hc
      simp only [List.mem_cons, List.mem_singleton, List.not_mem_nil, or_false] at hc
      rcases hc with h | h | h | h
      · exact Or.inl (h ▸ toB64_mem _ (by omega))
      · exact Or.inl (h ▸ toB64_mem _ (by omega))
      · exact Or.inr h
      · exact Or.inr h
    | [b1, b2] =>
      have h1 : b1 < 256 := hb b1 (by simp)
      have h2 : b2 < 256 := hb b2 (by simp)
      rw [b64encode] at hc
      simp only [List.mem_cons, List.mem_singleton, List.not_mem_nil, or_false] at hc
      rcases hc with h | h | h | h
      · exact Or.inl (h ▸ toB64_mem _ (by omega))
      · exact Or.inl (h ▸ toB64_mem _ (by omega))
      · exact Or.inl (h ▸ toB64_mem _ (by omega))
      · exact Or.inr h
    | b1 :: b2 :: b3 :: rest =>
      have h1 : b1 < 256 := hb b1 (by simp)
      have h2 : b2 < 256 := hb b2 (by simp)
      have h3 : b3 < 256 := hb b3 (by simp)
      rw [b64encode] at hc
      simp only [List.mem_cons] at hc
      rcases hc with h | h | h | h | h
      · exact Or.inl (h ▸ toB64_mem _ (by omega))
      · exact Or.inl (h ▸ toB64_mem _ (by omega))
      · exact Or.inl (h ▸ toB64_mem _ (by omega))
      · exact Or.inl (h ▸ toB64_mem _ (by omega))
      · exact ih rest (by simp at hlen; omega) (fun b hbm => hb b (by simp [hbm])) c h

lemma mem_b64encode' {bs : List Nat} (hb : ∀ b ∈ bs, b < 256) {c : Char}
    (hc : c ∈ b64encode bs) : c ∈ b64chars ∨ c = '=' :=
  mem_b64encode bs.length bs le_rfl hb c hc

lemma b64encode_nonspace {bs : List Nat} (hb : ∀ b ∈ bs, b < 256) :
    ∀ c ∈ b64encode bs, isSpaceB c = false := by
  intro c hc
  rcases mem_b64encode' hb hc with h | h
  · exact b64chars_nonspace c h
  · subst h; decide

lemma b64encode_ne_semi {bs : List Nat} (hb : ∀ b ∈ bs, b < 256) :
    ∀ c ∈ b64encode bs, c ≠ ';' := by
  intro c hc
  rcases mem_b64encode' hb hc with h | h
  · exact b64chars_ne_semi c h
  · subst h; decide

/-- Block decoding inverts encoding on genuine byte lists. -/
lemma b64decodeBlocks_encode : ∀ (fuel : Nat) (bs : List Nat), bs.length ≤ fuel →
    (∀ b ∈ bs, b < 256) → b64decodeBlocks (b64encode bs) = some bs := by
  intro fuel
  induction fuel with
  | zero =>
    intro bs hlen _
    have : bs = [] := List.length_eq_zero.mp (Nat.le_zero.mp hlen)
    subst this
    rfl
  | succ n ih =>
    intro bs hlen hb
    match bs with
    | [] => rfl
    | [b1] =>
      have h1 : b1 < 256 := hb b1 (by simp)
      have e1 := fromB64_toB64 (b1 / 4) (by omega)
      have e2 := fromB64_toB64 (b1 % 4 * 16) (by omega)
      simp [b64encode, b64decodeBlocks, e1, e2]
      omega
    | [b1, b2] =>
      have h1 : b1 < 256 := hb b1 (by simp)
      have h2 : b2 < 256 := hb b2 (by simp)
      have e1 := fromB64_toB64 (b1 / 4) (by omega)
      have e2 := fromB64_toB64 (b1 % 4 * 16 + b2 / 16) (by omega)
      have e3 := fromB64_toB64 (b2 % 16 * 4) (by omega)
      have ne3 := toB64_ne_pad (b2 % 16 * 4) (by omega)
      simp [b64encode, b64decodeBlocks, e1, e2, e3, ne3]
      omega
    | b1 :: b2 :: b3 :: rest =>
      have h1 : b1 < 256 := hb b1 (by simp)
      have h2 : b2 < 256 := hb b2 (by simp)
      have h3 : b3 < 256 := hb b3 (by simp)
      have hrest := ih rest (by simp at hlen; omega) (fun b hbm => hb b (by simp [hbm]))
      have e1 := fromB64_toB64 (b1 / 4) (by omega)
      have e2 := fromB64_toB64 (b1 % 4 * 16 + b2 / 16) (by omega)
      have e3 := fromB64_toB64 (b2 % 16 * 4 + b3 / 64) (by omega)
      have e4 := fromB64_toB64 (b3 % 64) (by omega)
      have ne3 := toB64_ne_pad (b2 % 16 * 4 + b3 / 64) (by omega)
      have ne4 := toB64_ne_pad (b3 % 64) (by omega)
      simp [b64encode, b64decodeBlocks, e1, e2, e3, e4, ne3, ne4, hrest]
      omega

/-- `b64decode` inverts `b64encode` on genuine byte lists. -/
lemma b64_roundtrip {bs : List Nat} (hb : ∀ b ∈ bs, b < 256) :
    b64decode (b64encode bs) = some bs := by
  rw [b64decode]
  have hfilter : (b64encode bs).filter (fun c => isB64 c || c = '=') = b64encode bs := by
    apply List.filter_eq_self.mpr
    intro c hc
    rcases mem_b64encode' hb hc with h | h
    · simp [isB64_of_mem h]
    · simp [h]
  rw [hfilter]
  exact b64decodeBlocks_encode bs.length bs le_rfl hb

/-! ## indented_split lemmas -/

lemma joinChunksF_fuel : ∀ (f₁ f₂ : Nat) (v : List Char), v.length ≤ f₁ → v.length ≤ f₂ →
    joinChunksF f₁ v = joinChunksF f₂ v := by
  intro f₁
  induction f₁ with
  | zero =>
    intro f₂ v h1 _
    have : v = [] := List.length_eq_zero.mp (Nat.le_zero.mp h1)
    subst this
    cases f₂ <;> rfl
  | succ n ih =>
    intro f₂ v h1 h2
    cases v with
    | nil => cases f₂ <;> rfl
    | cons c t =>
      cases f₂ with
      | zero => simp at h2
      | succ m =>
        rw [joinChunksF, joinChunksF]
        congr 1
        apply ih
        · have : ((c :: t).drop 78).length = (c :: t).length - 78 := List.length_drop ..
          simp at h1
          simp [this]
          omega
        · have : ((c :: t).drop 78).length = (c :: t).length - 78 := List.length_drop ..
          simp at h2
          simp [this]
          omega

lemma joinChunks_cons (c : Char) (t : List Char) :
    joinChunks (c :: t) = "  ".toList ++ (c :: t).take 78 ++ ['\n'] ++ joinChunks ((c :: t).drop 78) := by
  rw [joinChunks]
  simp only [List.length_cons]
  rw [joinChunksF]
  congr 1
  apply joinChunksF_fuel
  · simp [List.length_drop]
  · exact le_rfl

lemma removeWS_joinChunksF : ∀ (fuel : Nat) (v : List Char), v.length ≤ fuel →
    (∀ c ∈ v, isSpaceB c = false) → removeWS (joinChunksF fuel v) = v := by
  intro fuel
  induction fuel with
  | zero =>
    intro v hlen _
    have : v = [] := List.length_eq_zero.mp (Nat.le_zero.mp hlen)
    subst this
    rfl
  | succ n ih =>
    intro v hlen hv
    cases v with
    | nil => rfl
    | cons c t =>
      rw [joinChunksF, removeWS_append, removeWS_append, removeWS_append]
      have hind : removeWS "  ".toList = [] := by decide
      have hnl : removeWS ['\n'] = [] := by decide
      have htake : removeWS ((c :: t).take 78) = (c :: t).take 78 :=
        removeWS_eq_self _ (fun x hx => hv x (List.take_subset _ _ hx))
      have hdrop : removeWS (joinChunksF n ((c :: t).drop 78)) = (c :: t).drop 78 := by
        apply ih
        · have : ((c :: t).drop 78).length = (c :: t).length - 78 := List.length_drop ..
          simp at hlen ⊢
          omega
        · exact fun x hx => hv x (List.drop_subset _ _ hx)
      rw [hind, hnl, htake, hdrop]
      simp

lemma removeWS_joinChunks {v : List Char} (h : ∀ c ∈ v, isSpaceB c = false) :
    removeWS (joinChunks v) = v :=
  removeWS_joinChunksF v.length v le_rfl h

lemma mem_joinChunksF : ∀ (fuel : Nat) (v : List Char) (c : Char),
    c ∈ joinChunksF fuel v → c = ' ' ∨ c = '\n' ∨ c ∈ v := by
  intro fuel
  induction fuel with
  | zero =>
    intro v c hc
    cases v <;> simp [joinChunksF] at hc
  | succ n ih =>
    intro v c hc
    cases v with
    | nil => simp [joinChunksF] at hc
    | cons a t =>
      rw [joinChunksF] at hc
      simp only [List.mem_append] at hc
      rcases hc with ((h | h) | h) | h
      · have : c ∈ [' ', ' '] := by simpa using h
        simp at this
        exact Or.inl this
      · exact Or.inr (Or.inr (List.take_subset _ _ h))
      · simp at h
        exact Or.inr (Or.inl h)
      · rcases ih _ c h with h1 | h1 | h1
        · exact Or.inl h1
        · exact Or.inr (Or.inl h1)
        · exact Or.inr (Or.inr (List.drop_subset _ _ h1))

lemma mem_joinChunks {v : List Char} {c : Char} (hc : c ∈ joinChunks v) :
    c = ' ' ∨ c = '\n' ∨ c ∈ v :=
  mem_joinChunksF v.length v c hc

lemma removeWS_indented_split {bs : List Nat} (hb : ∀ b ∈ bs, b < 256) :
    removeWS (indented_split (b64encode bs)) = b64encode bs := by
  rw [indented_split, removeWS_rstrip]
  exact removeWS_joinChunks (b64encode_nonspace hb)

lemma indented_split_ne_semi {bs : List Nat} (hb : ∀ b ∈ bs, b < 256) :
    ∀ c ∈ indented_split (b64encode bs), c ≠ ';' := by
  intro c hc
  have hc' := mem_rstrip hc
  rcases mem_joinChunks hc' with h | h | h
  · subst h; decide
  · subst h; decide
  · exact b64encode_ne_semi hb c h

lemma b64encode_ne_nil {bs : List Nat} (h : bs ≠ []) : b64encode bs ≠ [] := by
  match bs with
  | [] => exact absurd rfl h
  | [b1] => simp [b64encode]
  | [b1, b2] => simp [b64encode]
  | b1 :: b2 :: b3 :: rest => simp [b64encode]

lemma indented_split_ne_nil {bs : List Nat} (hbs : bs ≠ []) (hb : ∀ b ∈ bs, b < 256) :
    indented_split (b64encode bs) ≠ [] := by
  rw [indented_split]
  apply rstrip_ne_nil
  obtain ⟨c, t, hct⟩ : ∃ c t, b64encode bs = c :: t := by
    cases he : b64encode bs with
    | nil => exact absurd he (b64encode_ne_nil hbs)
    | cons c t => exact ⟨c, t, rfl⟩
  refine ⟨c, ?_, ?_⟩
  · rw [joinChunks, hct]
    have hcc : c ∈ (c :: t).take 78 := by
      cases h78 : (c :: t).take 78 with
      | nil => simp at h78
      | cons x xs =>
        have : x = c := by
          have := congrArg (List.head?) h78
          simpa [List.head?_take] using this.symm
        rw [this] at h78 ⊢
        exact List.mem_cons_self ..
    simp only [List.length_cons]
    rw [joinChunksF]
    simp [hcc]
  · exact b64encode_nonspace hb c (hct ▸ List.mem_cons_self ..)

/-! ## parse_ac_headervalue step lemmas -/

lemma addr_lit : "addr=".toList = "addr".toList ++ '=' :: [] := rfl

lemma keydata_nl_lit : "keydata=\n".toList = "keydata".toList ++ '=' :: '\n' :: [] := rfl

lemma keydata_lit : "keydata=".toList = "keydata".toList ++ '=' :: [] := rfl

lemma splitOnce_addr_seg (A : List Char) :
    splitOnce '=' ("addr=".toList ++ A) = ("addr".toList, some A) := by
  rw [addr_lit, List.append_assoc]
  exact splitOnce_append _ (by decide)

lemma splitOnce_keydata_nl_seg (V : List Char) :
    splitOnce '=' ("keydata=\n".toList ++ V) = ("keydata".toList, some ('\n' :: V)) := by
  rw [keydata_nl_lit, List.append_assoc]
  exact splitOnce_append _ (by decide)

lemma splitOnce_keydata_seg (V : List Char) :
    splitOnce '=' ("keydata=".toList ++ V) = ("keydata".toList, some V) := by
  rw [keydata_lit, List.append_assoc]
  exact splitOnce_append _ (by decide)

lemma stripWS_of_strip_eq {A : List Char} (h1 : lstripWS A = A) (h2 : rstripWS A = A) :
    stripWS A = A := by
  rw [stripWS, h1, h2]

lemma parseLoop_addr_seg (A : List Char) (rest : List (List Char)) (rd : RDict)
    (extra : List (List Char × List Char)) (h1 : lstripWS A = A) (h2 : rstripWS A = A) :
    parseLoop (("addr=".toList ++ A) :: rest) rd extra =
      parseLoop rest { rd with addr := some A } extra := by
  rw [parseLoop, splitOnce_addr_seg]
  have hs : stripWS "addr".toList = "addr".toList := by decide
  have hA : stripWS A = A := stripWS_of_strip_eq h1 h2
  simp only [hs, hA]
  simp

lemma parseLoop_keydata_nl_seg (ks : List Nat) (rest : List (List Char)) (rd : RDict)
    (extra : List (List Char × List Char)) (hb : ∀ b ∈ ks, b < 256) :
    parseLoop (("keydata=\n".toList ++ indented_split (b64encode ks)) :: rest) rd extra =
      parseLoop rest { rd with keydata := some ks } extra := by
  rw [parseLoop, splitOnce_keydata_nl_seg]
  have hs : stripWS "keydata".toList = "keydata".toList := by decide
  have hval : b64decode (removeWS (stripWS ('\n' :: indented_split (b64encode ks)))) = some ks := by
    rw [removeWS_strip]
    have : removeWS ('\n' :: indented_split (b64encode ks)) =
        removeWS (indented_split (b64encode ks)) := by
      rw [removeWS, removeWS, List.filter_cons]
      norm_num [isSpaceB]
    rw [this, removeWS_indented_split hb]
    have hfilter : (b64encode ks).filter (fun c => isB64 c || c = '=') = b64encode ks := by
      apply List.filter_eq_self.mpr
      intro c hc
      rcases mem_b64encode' hb hc with h | h
      · simp [isB64_of_mem h]
      · simp [h]
    rw [b64decode, hfilter]
    exact b64decodeBlocks_encode ks.length ks le_rfl hb
  simp only [hs, hval]
  simp

lemma parseLoop_keydata_plain_seg (ks : List Nat) (rest : List (List Char)) (rd : RDict)
    (extra : List (List Char × List Char)) (hb : ∀ b ∈ ks, b < 256) :
    parseLoop (("keydata=".toList ++ b64encode ks) :: rest) rd extra =
      parseLoop rest { rd with keydata := some ks } extra := by
  rw [parseLoop, splitOnce_keydata_seg]
  have hs : stripWS "keydata".toList = "keydata".toList := by decide
  have hval : b64decode (removeWS (stripWS (b64encode ks))) = some ks := by
    rw [removeWS_strip, removeWS_eq_self _ (b64encode_nonspace hb)]
    rw [b64decode]
    have hfilter : (b64encode ks).filter (fun c => isB64 c || c = '=') = b64encode ks := by
      apply List.filter_eq_self.mpr
      intro c hc
      rcases mem_b64encode' hb hc with h | h
      · simp [isB64_of_mem h]
      · simp [h]
    rw [hfilter]
    exact b64decodeBlocks_encode ks.length ks le_rfl hb
  simp only [hs, hval]
  simp

lemma parseLoop_prefer_mutual_seg (rest : List (List Char)) (rd : RDict)
    (extra : List (List Char × List Char)) :
    parseLoop ("prefer-encrypt=mutual".toList :: rest) rd extra =
      parseLoop rest { rd with prefer_encrypt := "mutual".toList } extra := by
  have hsp : splitOnce '=' "prefer-encrypt=mutual".toList =
      ("prefer-encrypt".toList, some "mutual".toList) := by decide
  rw [parseLoop, hsp]
  have h1 : stripWS "prefer-encrypt".toList = "prefer-encrypt".toList := by decide
  have h2 : stripWS "mutual".toList = "mutual".toList := by decide
  simp only [h1, h2]
  simp

lemma parseLoop_done (k : List Nat) (a pe : List Char) (extra : List (List Char × List Char)) :
    parseLoop [] { keydata := some k, addr := some a, prefer_encrypt := pe } extra =
      .ok { keydata := some k, addr := some a, prefer_encrypt := some pe,
            extra_attr := some extra, error := none } := rfl

/-! ## Segment stripping and splitting of encoded header values -/

lemma stripWS_addr_seg {A : List Char} (h2 : rstripWS A = A) :
    stripWS ("addr=".toList ++ A) = "addr=".toList ++ A := by
  have hcons : "addr=".toList ++ A = 'a' :: ("ddr=".toList ++ A) := rfl
  rw [stripWS, hcons, lstrip_of_head (by decide), ← hcons]
  cases hA : A with
  | nil =>
    subst hA
    decide
  | cons c t =>
    rw [← hA]
    exact rstrip_append (hA ▸ List.cons_ne_nil c t) h2

lemma rstrip_indented_split (v : List Char) :
    rstripWS (indented_split v) = indented_split v := by
  rw [indented_split, rstrip_idem]

lemma stripWS_keydata_nl_seg {ks : List Nat} (hks : ks ≠ []) (hb : ∀ b ∈ ks, b < 256) :
    stripWS (' ' :: ("keydata=\n".toList ++ indented_split (b64encode ks))) =
      "keydata=\n".toList ++ indented_split (b64encode ks) := by
  rw [stripWS_cons_space]
  have hcons : "keydata=\n".toList ++ indented_split (b64encode ks) =
      'k' :: ("eydata=\n".toList ++ indented_split (b64encode ks)) := rfl
  rw [stripWS, hcons, lstrip_of_head (by decide), ← hcons]
  exact rstrip_append (indented_split_ne_nil hks hb) (rstrip_indented_split _)

lemma stripWS_keydata_plain_seg {ks : List Nat} (hb : ∀ b ∈ ks, b < 256) :
    stripWS (' ' :: ("keydata=".toList ++ b64encode ks)) =
      "keydata=".toList ++ b64encode ks := by
  rw [stripWS_cons_space]
  have hcons : "keydata=".toList ++ b64encode ks =
      'k' :: ("eydata=".toList ++ b64encode ks) := rfl
  rw [stripWS, hcons, lstrip_of_head (by decide), ← hcons]
  cases he : b64encode ks with
  | nil => decide
  | cons c t =>
    rw [← he]
    exact rstrip_append (he ▸ List.cons_ne_nil c t)
      (rstrip_of_all_nonspace (b64encode_nonspace hb))

lemma not_semi_addr_seg {A : List Char} (hA : ';' ∉ A) : ';' ∉ "addr=".toList ++ A := by
  rw [List.mem_append]
  have h1 : ';' ∉ "addr=".toList := by decide
  rintro (h | h)
  · exact h1 h
  · exact hA h

lemma not_semi_keydata_nl_seg {ks : List Nat} (hb : ∀ b ∈ ks, b < 256) :
    ';' ∉ ' ' :: ("keydata=\n".toList ++ indented_split (b64encode ks)) := by
  intro h
  rcases List.mem_cons.mp h with h1 | h1
  · exact absurd h1.symm (by decide)
  · rcases List.mem_append.mp h1 with h2 | h2
    · exact absurd h2 (by decide)
    · exact indented_split_ne_semi hb ';' h2 rfl

lemma not_semi_keydata_plain_seg {ks : List Nat} (hb : ∀ b ∈ ks, b < 256) :
    ';' ∉ ' ' :: ("keydata=".toList ++ b64encode ks) := by
  intro h
  rcases List.mem_cons.mp h with h1 | h1
  · exact absurd h1.symm (by decide)
  · rcases List.mem_append.mp h1 with h2 | h2
    · exact absurd h2 (by decide)
    · exact b64encode_ne_semi hb ';' h2 rfl

lemma isEmpty_append_lit_false (x : Char) (l A : List Char) :
    ((x :: l) ++ A).isEmpty = false := rfl

/-- `acParts` of an encoded header without a preference attribute. -/
lemma acParts_make_nopref (A : List Char) (ks : List Nat) (hA1 : ';' ∉ A)
    (h3 : rstripWS A = A) (hks : ks ≠ []) (hb : ∀ b ∈ ks, b < 256) :
    acParts (make_ac_header_value A ks "nopreference".toList) =
      ["addr=".toList ++ A, "keydata=\n".toList ++ indented_split (b64encode ks)] := by
  have hmk : make_ac_header_value A ks "nopreference".toList =
      ("addr=".toList ++ A) ++ ';' :: ' ' ::
        ("keydata=\n".toList ++ indented_split (b64encode ks)) := by
    rw [make_ac_header_value]
    simp [joinSemiSp]
  rw [hmk, acParts]
  rw [splitChar_append_sep _ (not_semi_addr_seg hA1)]
  rw [splitChar_no_sep (l := ' ' :: _) (not_semi_keydata_nl_seg hb)]
  rw [List.map_cons, List.map_cons, List.map_nil]
  rw [stripWS_addr_seg h3, stripWS_keydata_nl_seg hks hb]
  rw [List.filter_cons, List.filter_cons, List.filter_nil]
  norm_num [isEmpty_append_lit_false]

/-- `acParts` of an encoded header with `prefer-encrypt=mutual`. -/
lemma acParts_make_mutual (A : List Char) (ks : List Nat) (hA1 : ';' ∉ A)
    (h3 : rstripWS A = A) (hks : ks ≠ []) (hb : ∀ b ∈ ks, b < 256) :
    acParts (make_ac_header_value A ks "mutual".toList) =
      ["addr=".toList ++ A, "prefer-encrypt=mutual".toList,
       "keydata=\n".toList ++ indented_split (b64encode ks)] := by
  have hmk : make_ac_header_value A ks "mutual".toList =
      ("addr=".toList ++ A) ++ ';' :: ' ' :: ("prefer-encrypt=mutual".toList ++ ';' :: ' ' ::
        ("keydata=\n".toList ++ indented_split (b64encode ks))) := by
    rw [make_ac_header_value]
    have hne : ¬ ("mutual".toList = "nopreference".toList) := by decide
    simp [hne, joinSemiSp]
  rw [hmk, acParts]
  rw [splitChar_append_sep _ (not_semi_addr_seg hA1)]
  have hsp2 : splitChar ';' (' ' :: ("prefer-encrypt=mutual".toList ++ ';' :: ' ' ::
      ("keydata=\n".toList ++ indented_split (b64encode ks)))) =
      (' ' :: "prefer-encrypt=mutual".toList) ::
        [' ' :: ("keydata=\n".toList ++ indented_split (b64encode ks))] := by
    have : ' ' :: ("prefer-encrypt=mutual".toList ++ ';' :: ' ' ::
        ("keydata=\n".toList ++ indented_split (b64encode ks))) =
        (' ' :: "prefer-encrypt=mutual".toList) ++ ';' :: (' ' ::
        ("keydata=\n".toList ++ indented_split (b64encode ks))) := by simp
    rw [this, splitChar_append_sep _ (by decide)]
    rw [splitChar_no_sep (l := ' ' :: _) (not_semi_keydata_nl_seg hb)]
  rw [hsp2]
  rw [List.map_cons, List.map_cons, List.map_cons, List.map_nil]
  rw [stripWS_addr_seg h3]
  have hpm : stripWS (' ' :: "prefer-encrypt=mutual".toList) = "prefer-encrypt=mutual".toList := by
    decide
  rw [hpm, stripWS_keydata_nl_seg hks hb]
  rw [List.filter_cons, List.filter_cons, List.filter_cons, List.filter_nil]
  norm_num [isEmpty_append_lit_false]

/-! ## Claim C1: encode/parse round-trip -/

/-- C1 (counterexample): the round-trip claim quantifies over every address
string, but an address containing a `;` breaks it: the encoder does not quote
its inputs, so `addr=a;b` splits into two segments and the second one
(`b`, without any `=`) makes the parser return the malformed-setting error
result instead of a no-error result carrying the inputs. -/
theorem roundtrip_cex :
    parse_ac_headervalue (make_ac_header_value "a;b".toList [65] "nopreference".toList) =
      .ok (errResult malformedMsg) := by decide

/-- C1 (amended): for every address without `;` and without leading or
trailing whitespace, every non-empty byte string, and both preference values,
parsing the encoded header value succeeds with exactly the encoded address,
key material, and preference (the omitted `nopreference` comes back as the
parser default). -/
theorem roundtrip (A : List Char) (ks : List Nat) (pe : List Char)
    (hA1 : ';' ∉ A) (hA2 : lstripWS A = A) (hA3 : rstripWS A = A)
    (hks : ks ≠ []) (hb : ∀ b ∈ ks, b < 256)
    (hpe : pe = "nopreference".toList ∨ pe = "mutual".toList) :
    parse_ac_headervalue (make_ac_header_value A ks pe) =
      .ok { keydata := some ks, addr := some A, prefer_encrypt := some pe,
            extra_attr := some [], error := none } := by
  rcases hpe with rfl | rfl
  · rw [parse_ac_headervalue, acParts_make_nopref A ks hA1 hA3 hks hb]
    rw [parseLoop_addr_seg A _ _ _ hA2 hA3]
    rw [parseLoop_keydata_nl_seg ks _ _ _ hb]
    exact parseLoop_done ks A "nopreference".toList []
  · rw [parse_ac_headervalue, acParts_make_mutual A ks hA1 hA3 hks hb]
    rw [parseLoop_addr_seg A _ _ _ hA2 hA3]
    rw [parseLoop_prefer_mutual_seg]
    rw [parseLoop_keydata_nl_seg ks _ _ _ hb]
    exact parseLoop_done ks A "mutual".toList []

/-- C1 witness: the amended round-trip at a concrete address, key and
preference. -/
theorem roundtrip_witness :
    (';' ∉ "alice@example.org".toList) ∧ lstripWS "alice@example.org".toList =
      "alice@example.org".toList ∧ rstripWS "alice@example.org".toList =
      "alice@example.org".toList ∧ ([1, 2, 255] : List Nat) ≠ [] ∧
    parse_ac_headervalue (make_ac_header_value "alice@example.org".toList [1, 2, 255]
        "mutual".toList) =
      .ok { keydata := some [1, 2, 255], addr := some "alice@example.org".toList,
            prefer_encrypt := some "mutual".toList, extra_attr := some [], error := none } :=
  ⟨by decide, by decide, by decide, by decide,
    roundtrip "alice@example.org".toList [1, 2, 255] "mutual".toList (by decide) (by decide)
      (by decide) (by decide) (by decide) (Or.inr rfl)⟩

/-! ## Claim C10: duplicated attributes inside one header value -/

lemma not_semi_cons_sp {l : List Char} (h : ';' ∉ l) : ';' ∉ ' ' :: l := by
  intro hm
  rcases List.mem_cons.mp hm with h1 | h1
  · exact absurd h1.symm (by decide)
  · exact h h1

lemma not_semi_keydata_enc {ks : List Nat} (hb : ∀ b ∈ ks, b < 256) :
    ';' ∉ "keydata=".toList ++ b64encode ks := by
  intro hm
  rcases List.mem_append.mp hm with h1 | h1
  · exact absurd h1 (by decide)
  · exact b64encode_ne_semi hb ';' h1 rfl

/-- C10: a header value naming `addr` twice and `keydata` twice parses with
no error; the later occurrence of each silently wins (Python dict assignment
overwrites), for arbitrary semicolon-free trimmed addresses and arbitrary
byte strings. -/
theorem duplicate_attr_last_wins (a1 a2 : List Char) (ks1 ks2 : List Nat)
    (ha1 : ';' ∉ a1) (ha1l : lstripWS a1 = a1) (ha1r : rstripWS a1 = a1)
    (ha2 : ';' ∉ a2) (ha2l : lstripWS a2 = a2) (ha2r : rstripWS a2 = a2)
    (hb1 : ∀ b ∈ ks1, b < 256) (hb2 : ∀ b ∈ ks2, b < 256) :
    parse_ac_headervalue (joinSemiSp
      ["addr=".toList ++ a1, "addr=".toList ++ a2,
       "keydata=".toList ++ b64encode ks1, "keydata=".toList ++ b64encode ks2]) =
      .ok { keydata := some ks2, addr := some a2,
            prefer_encrypt := some "nopreference".toList,
            extra_attr := some [], error := none } := by
  have hmk : joinSemiSp
      ["addr=".toList ++ a1, "addr=".toList ++ a2,
       "keydata=".toList ++ b64encode ks1, "keydata=".toList ++ b64encode ks2] =
      ("addr=".toList ++ a1) ++ ';' :: ((' ' :: ("addr=".toList ++ a2)) ++ ';' ::
        ((' ' :: ("keydata=".toList ++ b64encode ks1)) ++ ';' ::
          (' ' :: ("keydata=".toList ++ b64encode ks2)))) := by
    simp [joinSemiSp]
  have hparts : acParts (joinSemiSp
      ["addr=".toList ++ a1, "addr=".toList ++ a2,
       "keydata=".toList ++ b64encode ks1, "keydata=".toList ++ b64encode ks2]) =
      ["addr=".toList ++ a1, "addr=".toList ++ a2,
       "keydata=".toList ++ b64encode ks1, "keydata=".toList ++ b64encode ks2] := by
    rw [hmk, acParts]
    rw [splitChar_append_sep _ (not_semi_addr_seg ha1)]
    rw [splitChar_append_sep _ (not_semi_cons_sp (not_semi_addr_seg ha2))]
    rw [splitChar_append_sep _ (not_semi_cons_sp (not_semi_keydata_enc hb1))]
    rw [splitChar_no_sep (not_semi_cons_sp (not_semi_keydata_enc hb2))]
    rw [List.map_cons, List.map_cons, List.map_cons, List.map_cons, List.map_nil]
    rw [stripWS_addr_seg ha1r]
    rw [stripWS_cons_space, stripWS_addr_seg ha2r]
    rw [stripWS_keydata_plain_seg hb1, stripWS_keydata_plain_seg hb2]
    rw [List.filter_cons, List.filter_cons, List.filter_cons, List.filter_cons,
        List.filter_nil]
    norm_num [isEmpty_append_lit_false]
  rw [parse_ac_headervalue, hparts]
  rw [parseLoop_addr_seg a1 _ _ _ ha1l ha1r]
  rw [parseLoop_addr_seg a2 _ _ _ ha2l ha2r]
  rw [parseLoop_keydata_plain_seg ks1 _ _ _ hb1]
  rw [parseLoop_keydata_plain_seg ks2 _ _ _ hb2]
  exact parseLoop_done ks2 a2 "nopreference".toList []

/-- C10 witness: duplicated `addr` and `keydata` at concrete values; the
second occurrences win and no error is reported. -/
theorem duplicate_attr_last_wins_witness :
    (';' ∉ "x@y".toList) ∧ (';' ∉ "z@w".toList) ∧
    parse_ac_headervalue (joinSemiSp
      ["addr=".toList ++ "x@y".toList, "addr=".toList ++ "z@w".toList,
       "keydata=".toList ++ b64encode [1], "keydata=".toList ++ b64encode [2, 3]]) =
      .ok { keydata := some [2, 3], addr := some "z@w".toList,
            prefer_encrypt := some "nopreference".toList,
            extra_attr := some [], error := none } :=
  ⟨by decide, by decide,
    duplicate_attr_last_wins "x@y".toList "z@w".toList [1] [2, 3]
      (by decide) (by decide) (by decide) (by decide) (by decide) (by decide)
      (by decide) (by decide)⟩

/-! ## Claim C5: unknown critical attributes -/

/-- The attribute name of a segment, when the segment has `name=value` shape
(the stripped part before the first `=`). -/
def segHasName (p : List Char) : Option (List Char) :=
  match splitOnce '=' p with
  | (n, some _) => some (stripWS n)
  | (_, none) => none

/-- A segment whose name is none of `addr`, `prefer-encrypt`, `keydata` and
does not start with an underscore: the unknown-critical-attribute shape of
the claim (an empty name does not start with an underscore either). -/
def segUnknownCrit (p : List Char) : Bool :=
  match segHasName p with
  | some n =>
    decide (n ≠ "keydata".toList) && decide (n ≠ "prefer-encrypt".toList) &&
    decide (n ≠ "addr".toList) && decide (n.head? ≠ some '_')
  | none => false

/-- A segment either without `name=value` shape, or with a non-empty name. -/
def segNameNonempty (p : List Char) : Bool :=
  match segHasName p with
  | some n => !n.isEmpty
  | none => true

/-- C5 (counterexample): the header value `=x; foo=bar` contains the unknown
critical segment `foo=bar`, so the claim requires an error result; but the
parser hits the earlier segment `=x`, whose attribute name is empty, and the
expression `name[0]` raises `IndexError`, so no result at all is returned. -/
theorem unknown_attr_cex :
    ((acParts "=x; foo=bar".toList).any segUnknownCrit = true) ∧
    parse_ac_headervalue "=x; foo=bar".toList = .exn := by decide

/-- On the loop level: if some remaining segment has the unknown-critical
shape and every remaining segment has a non-empty name (or no `=` at all),
the loop ends in an error result. -/
lemma parseLoop_unknown_crit : ∀ (parts : List (List Char)) (rd : RDict)
    (extra : List (List Char × List Char)),
    (∀ p ∈ parts, segNameNonempty p = true) →
    (∃ p ∈ parts, segUnknownCrit p = true) →
    ∃ r, parseLoop parts rd extra = .ok r ∧ r.error ≠ none := by
  intro parts
  induction parts with
  | nil =>
    intro rd extra _ hbad
    simp at hbad
  | cons x t ih =>
    intro rd extra hnames hbad
    rw [parseLoop]
    cases hsp : splitOnce '=' x with
    | mk n v =>
      cases v with
      | none => exact ⟨_, rfl, by simp [errResult]⟩
      | some v0 =>
        have hxname : segHasName x = some (stripWS n) := by
          rw [segHasName, hsp]
        by_cases hk : stripWS n = "keydata".toList
        · simp only [hk, if_pos rfl]
          have hxnotbad : segUnknownCrit x = false := by
            rw [segUnknownCrit, hxname, hk]
            simp
          have hbad' : ∃ p ∈ t, segUnknownCrit p = true := by
            rcases hbad with ⟨p, hp, hpbad⟩
            rcases List.mem_cons.mp hp with rfl | hp'
            · rw [hxnotbad] at hpbad
              exact absurd hpbad (by simp)
            · exact ⟨p, hp', hpbad⟩
          cases hdec : b64decode (removeWS (stripWS v0)) with
          | none => exact ⟨_, rfl, by simp [errResult]⟩
          | some bs => exact ih _ _ (fun p hp => hnames p (List.mem_cons_of_mem _ hp)) hbad'
        · by_cases hpe : stripWS n = "prefer-encrypt".toList
          · simp only [hk, hpe, if_neg, if_pos rfl]
            have hxnotbad : segUnknownCrit x = false := by
              rw [segUnknownCrit, hxname, hpe]
              simp
            have hbad' : ∃ p ∈ t, segUnknownCrit p = true := by
              rcases hbad with ⟨p, hp, hpbad⟩
              rcases List.mem_cons.mp hp with rfl | hp'
              · rw [hxnotbad] at hpbad
                exact absurd hpbad (by simp)
              · exact ⟨p, hp', hpbad⟩
            by_cases hval : stripWS v0 = "nopreference".toList ∨ stripWS v0 = "mutual".toList
            · simp only [if_pos hval]
              exact ih _ _ (fun p hp => hnames p (List.mem_cons_of_mem _ hp)) hbad'
            · simp only [if_neg hval]
              exact ⟨_, rfl, by simp [errResult]⟩
          · by_cases ha : stripWS n = "addr".toList
            · simp only [hk, hpe, ha, if_neg, if_pos rfl]
              have hxnotbad : segUnknownCrit x = false := by
                rw [segUnknownCrit, hxname, ha]
                simp
              have hbad' : ∃ p ∈ t, segUnknownCrit p = true := by
                rcases hbad with ⟨p, hp, hpbad⟩
                rcases List.mem_cons.mp hp with rfl | hp'
                · rw [hxnotbad] at hpbad
                  exact absurd hpbad (by simp)
                · exact ⟨p, hp', hpbad⟩
              exact ih _ _ (fun p hp => hnames p (List.mem_cons_of_mem _ hp)) hbad'
            · simp only [if_neg hk, if_neg hpe, if_neg ha]
              cases hn : stripWS n with
              | nil =>
                have := hnames x (List.mem_cons_self ..)
                rw [segNameNonempty, hxname, hn] at this
                simp at this
              | cons c cs =>
                by_cases hc : c = '_'
                · simp only [if_pos hc]
                  have hxnotbad : segUnknownCrit x = false := by
                    rw [segUnknownCrit, hxname, hn, hc]
                    simp
                  have hbad' : ∃ p ∈ t, segUnknownCrit p = true := by
                    rcases hbad with ⟨p, hp, hpbad⟩
                    rcases List.mem_cons.mp hp with rfl | hp'
                    · rw [hxnotbad] at hpbad
                      exact absurd hpbad (by simp)
                    · exact ⟨p, hp', hpbad⟩
                  exact ih _ _ (fun p hp => hnames p (List.mem_cons_of_mem _ hp)) hbad'
                · simp only [if_neg hc]
                  exact ⟨_, rfl, by simp [errResult]⟩

/-- C5 (amended): for every header value string in which no segment has an
empty attribute name, if some segment carries an attribute name other than
`addr`, `prefer-encrypt`, `keydata` that does not start with an underscore,
then parsing returns an error result, whatever other attributes are present.
(The restriction to non-empty names is forced by `unknown_attr_cex`: an empty
name makes the parser raise instead of returning a result.) -/
theorem unknown_attr_error (value : List Char)
    (hnames : ∀ p ∈ acParts value, segNameNonempty p = true)
    (hbad : ∃ p ∈ acParts value, segUnknownCrit p = true) :
    ∃ r, parse_ac_headervalue value = .ok r ∧ r.error ≠ none := by
  rw [parse_ac_headervalue]
  exact parseLoop_unknown_crit _ _ _ hnames hbad

/-- C5 witness: `addr=a; foo=bar; keydata=QQ==` has valid attributes around
the unknown `foo`, and parsing still returns an error result. -/
theorem unknown_attr_error_witness :
    (∀ p ∈ acParts "addr=a; foo=bar; keydata=QQ==".toList, segNameNonempty p = true) ∧
    (∃ p ∈ acParts "addr=a; foo=bar; keydata=QQ==".toList, segUnknownCrit p = true) ∧
    ∃ r, parse_ac_headervalue "addr=a; foo=bar; keydata=QQ==".toList = .ok r ∧
      r.error ≠ none :=
  ⟨by decide, by decide,
    unknown_attr_error "addr=a; foo=bar; keydata=QQ==".toList (by decide) (by decide)⟩

/-! ## Claim C6: the empty-header error -/

/-- C6: on an input with zero segments the claim (and the source comment
`if not parts: return ACParseResult(error="empty header")`) expects the
dedicated empty-header error.  Under Python 3 `filter(None, ...)` returns an
iterator object, which is always truthy, so that guard never fires and the
empty input falls through to the critical-attribute check, yielding
`critical attr keydata missing` instead; under Python 2 (`filter` returns a
list) the source behaves as the claim states.  Both evaluated here, for the
empty string and for a string of semicolons and blanks. -/
theorem empty_header_divergence :
    parse_ac_headervalue "".toList = .ok (errResult criticalMissingKeydata) ∧
    parse_ac_headervalue " ; ;; ".toList = .ok (errResult criticalMissingKeydata) ∧
    parse_ac_headervalue_py2 "".toList = .ok (errResult emptyHeaderMsg) ∧
    parse_ac_headervalue_py2 " ; ;; ".toList = .ok (errResult emptyHeaderMsg) := by decide

/-! ## Claims C4 and C7: selection among multiple headers -/

/-- Whether one header value parses to a result with no error. -/
def parsesValid (h : List Char) : Bool :=
  match parse_ac_headervalue h with
  | .ok r => r.error.isNone
  | .exn => false

/-- The collection loop when every header survives. -/
lemma acSelect_all_valid (fl : Option (List (List Char))) : ∀ hs : List (List Char),
    (∀ h ∈ hs, ∃ r, parse_ac_headervalue h = .ok r ∧ r.error = none ∧
      fromListPass fl r = true) →
    ∃ rs, acSelect fl hs = .ok (rs, []) ∧ rs.length = hs.length := by
  intro hs
  induction hs with
  | nil => exact fun _ => ⟨[], rfl, rfl⟩
  | cons h t ih =>
    intro hall
    obtain ⟨r, hr, hre, hrp⟩ := hall h (List.mem_cons_self ..)
    obtain ⟨rs, hsel, hlen⟩ := ih (fun x hx => hall x (List.mem_cons_of_mem _ hx))
    refine ⟨r :: rs, ?_, by simp [hlen]⟩
    rw [acSelect, hr, hsel]
    simp [hre, hrp]

/-- C4 (counterexample): a `multipart/report` message carrying two valid
Autocrypt headers.  The claim requires the dedicated ambiguity error, but the
report check comes first, so selection returns the report error instead. -/
theorem ambiguous_cex :
    (["addr=a@b; keydata=QQ==".toList,
      "addr=a@b; prefer-encrypt=mutual; keydata=QQ==".toList].all parsesValid = true) ∧
    parse_one_ac_header_from_msg
      ⟨reportCT, ["addr=a@b; keydata=QQ==".toList,
                  "addr=a@b; prefer-encrypt=mutual; keydata=QQ==".toList]⟩ none =
      .ok (errResult reportMsg) ∧
    errResult reportMsg ≠ errResult ambiguousMsg := by decide

/-- C4 (amended): for every message that does not declare content type
`multipart/report` and carries two or more Autocrypt headers that each parse
without error (and pass the allow-list when one is given), selection returns
the dedicated more-than-one-valid-header error and never one of the valid
headers themselves. -/
theorem ambiguous_on_multiple_valid (msg : MimeMsg) (fl : Option (List (List Char)))
    (hct : msg.contentType ≠ reportCT)
    (hlen : 2 ≤ msg.acHeaders.length)
    (hall : ∀ h ∈ msg.acHeaders, ∃ r, parse_ac_headervalue h = .ok r ∧ r.error = none ∧
      fromListPass fl r = true) :
    parse_one_ac_header_from_msg msg fl = .ok (errResult ambiguousMsg) ∧
    ∀ h ∈ msg.acHeaders, ∀ r, parse_ac_headervalue h = .ok r →
      parse_one_ac_header_from_msg msg fl ≠ .ok r := by
  obtain ⟨rs, hsel, hlen'⟩ := acSelect_all_valid fl msg.acHeaders hall
  have hmain : parse_one_ac_header_from_msg msg fl = .ok (errResult ambiguousMsg) := by
    rw [parse_one_ac_header_from_msg, if_neg hct, hsel]
    rcases rs with _ | ⟨r1, _ | ⟨r2, rest⟩⟩
    · rw [← hlen'] at hlen
      simp at hlen
    · rw [← hlen'] at hlen
      simp at hlen
    · rfl
  refine ⟨hmain, ?_⟩
  intro h hm r hr hcontra
  obtain ⟨r', hr', hre', _⟩ := hall h hm
  rw [hr] at hr'
  have hrr : r = r' := PyRes.ok.inj hr'
  rw [hmain] at hcontra
  have hra : errResult ambiguousMsg = r := PyRes.ok.inj hcontra
  rw [← hra] at hrr
  rw [← hrr] at hre'
  simp [errResult] at hre'

/-- C4 witness: two distinct valid headers on a plain message yield the
ambiguity error. -/
theorem ambiguous_on_multiple_valid_witness :
    (("text/plain".toList : List Char) ≠ reportCT) ∧
    2 ≤ ([("addr=a@b; keydata=QQ==".toList : List Char),
          "addr=a@b; prefer-encrypt=mutual; keydata=QQ==".toList]).length ∧
    parse_one_ac_header_from_msg
      ⟨"text/plain".toList, ["addr=a@b; keydata=QQ==".toList,
                             "addr=a@b; prefer-encrypt=mutual; keydata=QQ==".toList]⟩ none =
      .ok (errResult ambiguousMsg) :=
  ⟨by decide, by decide,
    (ambiguous_on_multiple_valid
      ⟨"text/plain".toList, ["addr=a@b; keydata=QQ==".toList,
                             "addr=a@b; prefer-encrypt=mutual; keydata=QQ==".toList]⟩ none
      (by decide) (by decide)
      (by
        intro h hm
        rcases List.mem_cons.mp hm with rfl | hm'
        · exact ⟨{ keydata := some [65], addr := some "a@b".toList,
                   prefer_encrypt := some "nopreference".toList, extra_attr := some [],
                   error := none }, by decide, rfl, rfl⟩
        · rcases List.mem_cons.mp hm' with rfl | hm''
          · exact ⟨{ keydata := some [65], addr := some "a@b".toList,
                     prefer_encrypt := some "mutual".toList, extra_attr := some [],
                     error := none }, by decide, rfl, rfl⟩
          · simp at hm'')).1⟩

/-- The collection loop when no header survives: everything lands in
`err_results`, in header order. -/
lemma acSelect_none_valid (fl : Option (List (List Char))) : ∀ hs : List (List Char),
    (∀ h ∈ hs, ∃ r, parse_ac_headervalue h = .ok r ∧
      ¬(r.error = none ∧ fromListPass fl r = true)) →
    ∃ es, acSelect fl hs = .ok ([], es) ∧
      ∀ h0 t, hs = h0 :: t → ∀ r0, parse_ac_headervalue h0 = .ok r0 →
        ∃ es', es = r0 :: es' := by
  intro hs
  induction hs with
  | nil =>
    intro _
    exact ⟨[], rfl, fun h0 t h => by simp at h⟩
  | cons h t ih =>
    intro hall
    obtain ⟨r, hr, hcond⟩ := hall h (List.mem_cons_self ..)
    obtain ⟨es, hsel, _⟩ := ih (fun x hx => hall x (List.mem_cons_of_mem _ hx))
    refine ⟨r :: es, ?_, ?_⟩
    · rw [acSelect, hr, hsel]
      simp only [if_neg hcond]
    · intro h0 t0 heq r0 hr0
      obtain ⟨hh, -⟩ := List.cons.inj heq
      subst hh
      rw [hr] at hr0
      have hrr : r = r0 := PyRes.ok.inj hr0
      exact ⟨es, by rw [hrr]⟩

/-- C7 (counterexample): a message with one syntactically valid header whose
address is excluded by the allow-list.  The claim says the returned result
carries a descriptive non-empty error reason; the code instead returns the
excluded header itself, error-free (`err_results[0]` is the filtered-out
valid parse result). -/
theorem first_error_cex :
    parse_one_ac_header_from_msg ⟨"text/plain".toList, ["addr=a; keydata=QQ==".toList]⟩
        (some ["b".toList]) =
      .ok { keydata := some [65], addr := some "a".toList,
            prefer_encrypt := some "nopreference".toList, extra_attr := some [],
            error := none } ∧
    ({ keydata := some [65], addr := some "a".toList,
       prefer_encrypt := some "nopreference".toList, extra_attr := some [],
       error := none } : ACParseResult).error = none := by decide

/-- C7 (amended): for a non-report message with at least one header, none of
which raises, with zero surviving valid headers, selection returns the parse
result of the first header; that result carries no error exactly when it was
a valid header excluded by the allow-list (otherwise it carries the specific
parse-error reason). -/
theorem zero_valid_first_result (msg : MimeMsg) (fl : Option (List (List Char)))
    (h0 : List Char) (t : List (List Char))
    (hct : msg.contentType ≠ reportCT)
    (hhs : msg.acHeaders = h0 :: t)
    (hall : ∀ h ∈ msg.acHeaders, ∃ r, parse_ac_headervalue h = .ok r ∧
      ¬(r.error = none ∧ fromListPass fl r = true)) :
    ∀ r0, parse_ac_headervalue h0 = .ok r0 →
      parse_one_ac_header_from_msg msg fl = .ok r0 ∧
      (r0.error = none → fromListPass fl r0 = false) := by
  intro r0 hr0
  obtain ⟨es, hsel, hhead⟩ := acSelect_none_valid fl msg.acHeaders hall
  obtain ⟨es', hes⟩ := hhead h0 t hhs r0 hr0
  constructor
  · rw [parse_one_ac_header_from_msg, if_neg hct, hsel, hes]
  · intro hre
    obtain ⟨r, hr, hcond⟩ := hall h0 (hhs ▸ List.mem_cons_self ..)
    rw [hr0] at hr
    have : r0 = r := by injection hr
    subst this
    rcases Bool.eq_false_or_eq_true (fromListPass fl r0) with hb | hb
    · exact absurd ⟨hre, hb⟩ hcond
    · exact hb

/-- C7 witness: one malformed header, no allow-list: selection returns the
malformed-setting error result of that first header. -/
theorem zero_valid_first_result_witness :
    (("text/plain".toList : List Char) ≠ reportCT) ∧
    parse_ac_headervalue "garbage".toList = .ok (errResult malformedMsg) ∧
    parse_one_ac_header_from_msg ⟨"text/plain".toList, ["garbage".toList]⟩ none =
      .ok (errResult malformedMsg) :=
  ⟨by decide, by decide,
    ((zero_valid_first_result ⟨"text/plain".toList, ["garbage".toList]⟩ none
      "garbage".toList [] (by decide) rfl
      (by
        intro h hm
        rcases List.mem_cons.mp hm with rfl | hm'
        · exact ⟨errResult malformedMsg, by decide, by
            intro hc
            exact absurd hc.1 (by decide)⟩
        · simp at hm'))
      (errResult malformedMsg) (by decide)).1⟩

/-! ## Claims C2, C3, C8: reconciliation of incoming headers -/

lemma alGet_alSet {α : Type} (l : List (List Char × α)) (k : List Char) (v : α) :
    alGet (alSet l k v) k = some v := by
  induction l with
  | nil => simp [alSet, alGet]
  | cons p t ih =>
    obtain ⟨k₀, v₀⟩ := p
    rw [alSet]
    by_cases hk : k₀ = k
    · simp [hk, alGet]
    · simp only [if_neg hk]
      rw [alGet, if_neg hk]
      exact ih

/-- C2: the monotonic date guard of `process_incoming`.  With a stored record
carrying date `dOld` and an incoming message whose single valid header names
the sender, a strictly older incoming date `dNew < dOld` leaves the account
state (and so the stored header) completely unchanged and returns no peer
info; an equal date `dNew = dOld` is accepted and overwrites the record with
the incoming header (ties go to the incoming write). -/
theorem process_incoming_date_guard (importKey : List Nat → Nat) (st : AccountState)
    (m : InMsg) (e : PeerEntry) (d : ACParseResult) (dOld dNew : Nat)
    (hpeer : getPeer st m.fromAddr = some e)
    (hdOld : e.date = some dOld)
    (hsel : selectIncomingHeader m = .found d)
    (haddr : d.addr = some m.fromAddr)
    (hdNew : m.date = some dNew) :
    (dNew < dOld → process_incoming importKey st m = .ok (st, none)) ∧
    (dNew = dOld → process_incoming importKey st m =
      .ok ({ peers := alSet st.peers m.fromAddr
               (some { ac := d, date := m.date,
                       keyhandle := importKey (d.keydata.getD []) }) },
           some { ac := d, date := m.date,
                  keyhandle := importKey (d.keydata.getD []) })) := by
  have hold : oldDateOf st m = some dOld := by
    rw [oldDateOf, hpeer]
    exact hdOld
  constructor
  · intro hlt
    rw [process_incoming, hsel]
    simp only [if_pos haddr]
    rw [hold, hdNew, pyGE]
    have : ¬ (dOld ≤ dNew) := by omega
    simp [this]
  · intro heq
    rw [process_incoming, hsel]
    simp only [if_pos haddr]
    rw [hold, hdNew, pyGE]
    have : dOld ≤ dNew := by omega
    simp [this]

/-- C2 witness: a stored record dated 7 and an incoming valid header dated 5
leave the state unchanged. -/
theorem process_incoming_date_guard_witness :
    getPeer ⟨[("a@b".toList,
        some { ac := errResult [], date := some 7, keyhandle := 0 })]⟩ "a@b".toList =
      some { ac := errResult [], date := some 7, keyhandle := 0 } ∧
    selectIncomingHeader ⟨"a@b".toList, some 5, "text/plain".toList,
        ["addr=a@b; keydata=QQ==".toList]⟩ =
      .found { keydata := some [65], addr := some "a@b".toList,
               prefer_encrypt := some "nopreference".toList, extra_attr := some [],
               error := none } ∧
    (5 : Nat) < 7 ∧
    process_incoming (fun _ => 0)
      ⟨[("a@b".toList, some { ac := errResult [], date := some 7, keyhandle := 0 })]⟩
      ⟨"a@b".toList, some 5, "text/plain".toList, ["addr=a@b; keydata=QQ==".toList]⟩ =
      .ok (⟨[("a@b".toList, some { ac := errResult [], date := some 7, keyhandle := 0 })]⟩,
           none) :=
  ⟨by decide, by decide, by decide,
    (process_incoming_date_guard (fun _ => 0)
      ⟨[("a@b".toList, some { ac := errResult [], date := some 7, keyhandle := 0 })]⟩
      ⟨"a@b".toList, some 5, "text/plain".toList, ["addr=a@b; keydata=QQ==".toList]⟩
      { ac := errResult [], date := some 7, keyhandle := 0 }
      { keydata := some [65], addr := some "a@b".toList,
        prefer_encrypt := some "nopreference".toList, extra_attr := some [], error := none }
      7 5 (by decide) rfl (by decide) rfl rfl).1 (by decide)⟩

/-- C3: an inbound message whose header selection errored (parse failure,
ambiguity, report message), or whose single valid header names the sender but
carries a date strictly older than the comparison target, is processed
without any exception and without any change to the peer store, whatever the
prior state. -/
theorem process_incoming_noop (importKey : List Nat → Nat) (st : AccountState) (m : InMsg)
    (h : selectIncomingHeader m = .badHeader ∨
      ∃ d dNew dOld, selectIncomingHeader m = .found d ∧ d.addr = some m.fromAddr ∧
        m.date = some dNew ∧ oldDateOf st m = some dOld ∧ dNew < dOld) :
    process_incoming importKey st m = .ok (st, none) := by
  rcases h with hbad | ⟨d, dNew, dOld, hsel, haddr, hdNew, hdOld, hlt⟩
  · rw [process_incoming, hbad]
  · rw [process_incoming, hsel]
    simp only [if_pos haddr]
    rw [hdOld, hdNew, pyGE]
    have : ¬ (dOld ≤ dNew) := by omega
    simp [this]

/-- C3 witness: a malformed header over an arbitrary concrete store is a
no-op and does not raise. -/
theorem process_incoming_noop_witness :
    selectIncomingHeader ⟨"a@b".toList, some 5, "text/plain".toList,
        ["garbage".toList]⟩ = .badHeader ∧
    process_incoming (fun _ => 0)
      ⟨[("a@b".toList, some { ac := errResult [], date := some 7, keyhandle := 0 })]⟩
      ⟨"a@b".toList, some 5, "text/plain".toList, ["garbage".toList]⟩ =
      .ok (⟨[("a@b".toList, some { ac := errResult [], date := some 7, keyhandle := 0 })]⟩,
           none) :=
  ⟨by decide,
    process_incoming_noop (fun _ => 0)
      ⟨[("a@b".toList, some { ac := errResult [], date := some 7, keyhandle := 0 })]⟩
      ⟨"a@b".toList, some 5, "text/plain".toList, ["garbage".toList]⟩
      (Or.inl (by decide))⟩

/-- C8: a peer with a stored non-empty record that sends a non-report message
with zero Autocrypt headers has its record cleared to the empty dict, so a
subsequent `get_peerinfo` read reports nothing for that address. -/
theorem process_incoming_clears (importKey : List Nat → Nat) (st : AccountState)
    (m : InMsg) (e : PeerEntry)
    (hpeer : getPeer st m.fromAddr = some e)
    (hct : m.contentType ≠ reportCT)
    (hhdrs : m.acHeaders = []) :
    process_incoming importKey st m =
      .ok (⟨alSet st.peers m.fromAddr none⟩, none) ∧
    get_peerinfo ⟨alSet st.peers m.fromAddr none⟩ m.fromAddr = none := by
  have hsel : selectIncomingHeader m = .noneFound := by
    rw [selectIncomingHeader, if_neg hct, hhdrs]
  constructor
  · rw [process_incoming, hsel, hpeer]
  · rw [get_peerinfo, getPeer, alGet_alSet]

/-- C8 witness: a stored peer record, then a header-free plain message:
the record is cleared and the peer read returns nothing. -/
theorem process_incoming_clears_witness :
    getPeer ⟨[("a@b".toList,
        some { ac := errResult [], date := some 7, keyhandle := 0 })]⟩ "a@b".toList =
      some { ac := errResult [], date := some 7, keyhandle := 0 } ∧
    (("text/plain".toList : List Char) ≠ reportCT) ∧
    process_incoming (fun _ => 0)
      ⟨[("a@b".toList, some { ac := errResult [], date := some 7, keyhandle := 0 })]⟩
      ⟨"a@b".toList, some 5, "text/plain".toList, []⟩ =
      .ok (⟨alSet [("a@b".toList,
              some { ac := errResult [], date := some 7, keyhandle := 0 })]
              "a@b".toList none⟩, none) ∧
    get_peerinfo ⟨alSet [("a@b".toList,
        some { ac := errResult [], date := some 7, keyhandle := 0 })] "a@b".toList none⟩
      "a@b".toList = none :=
  ⟨by decide, by decide,
    (process_incoming_clears (fun _ => 0) _ ⟨"a@b".toList, some 5, "text/plain".toList, []⟩
      { ac := errResult [], date := some 7, keyhandle := 0 } (by decide) (by decide) rfl).1,
    (process_incoming_clears (fun _ => 0)
      ⟨[("a@b".toList, some { ac := errResult [], date := some 7, keyhandle := 0 })]⟩
      ⟨"a@b".toList, some 5, "text/plain".toList, []⟩
      { ac := errResult [], date := some 7, keyhandle := 0 } (by decide) (by decide) rfl).2⟩

/-! ## Claim C9: atomic change over the persistent config -/

/-- C9: the scoped atomic-change discipline.  If the body raises, the live
dict is restored to exactly the last-committed snapshot, the same exception
is re-raised and nothing is persisted; if the body succeeds, the new dict is
persisted precisely when it differs from the snapshot, and afterwards the
snapshot equals the new dict (when nothing was written they were already
equal). -/
theorem atomic_change_spec {α ε : Type} [DecidableEq α] (st : ConfigState α)
    (body : α → Except ε α) :
    (∀ e, body st.dict = .error e →
      atomic_change st body = ({ st with dict := st.dictOld }, some e, false)) ∧
    (∀ d, body st.dict = .ok d →
      atomic_change st body =
        (⟨d, d, if d = st.dictOld then st.file else some d⟩, none,
         decide (d ≠ st.dictOld))) := by
  constructor
  · intro e he
    rw [atomic_change, he]
  · intro d hd
    rw [atomic_change, hd]
    simp only [commitCfg]
    by_cases hdiff : d = st.dictOld
    · subst hdiff
      simp
    · simp [hdiff]

/-- C9 witness: both branches at concrete states: a raising body rolls back
and re-raises without persisting; a succeeding body persists exactly because
the result differs from the snapshot and updates the snapshot. -/
theorem atomic_change_spec_witness :
    ((fun _ : Nat => (Except.error () : Except Unit Nat)) 1 = .error ()) ∧
    atomic_change (⟨1, 0, none⟩ : ConfigState Nat) (fun _ => Except.error ()) =
      (⟨0, 0, none⟩, some (), false) ∧
    ((fun d : Nat => (Except.ok (d + 1) : Except Unit Nat)) 1 = .ok 2) ∧
    atomic_change (⟨1, 0, none⟩ : ConfigState Nat)
        (fun d : Nat => (Except.ok (d + 1) : Except Unit Nat)) =
      (⟨2, 2, some 2⟩, none, true) :=
  ⟨rfl,
    (atomic_change_spec (⟨1, 0, none⟩ : ConfigState Nat) (fun _ => Except.error ())).1 () rfl,
    rfl,
    by
      have h := (atomic_change_spec (⟨1, 0, none⟩ : ConfigState Nat)
        (fun d : Nat => (Except.ok (d + 1) : Except Unit Nat))).2 2 rfl
      simpa using h⟩
